import Mathlib

/-!
Verification of the `simple_pipes` ETL library (`src/simple_pipes/__init__.py`).

A Python value appearing in a row is modelled by `Value` (strings are lists of
characters, integers are unbounded as in Python).  A Python `dict` row is
modelled by `Record`, an insertion-ordered association list, with `Record.get`
(lookup), `Record.set` (assignment `d[k] = v`: update in place if the key is
present, append otherwise) and `Record.update` (`d.update(other)`) mirroring
dict semantics.  Exceptions raised by the library are modelled by the `Except`
monad with structured `ETLError` values carrying the data the corresponding
Python exception message interpolates.
-/

inductive Value where
  | s (chars : List Char)
  | i (n : Int)
  | b (v : Bool)
  | null
deriving DecidableEq, Repr

/-- Injective encoding of `Value` into a lexicographic product, used to give
`Value` a decidable total order (Python orders same-type values; a total order
across constructors is required by `sorted`, and the claims only ever compare
values of the same constructor). -/
def Value.encode : Value → ℕ ×ₗ (Int ×ₗ List Char)
  | .s cs => toLex (0, toLex (0, cs))
  | .i n => toLex (1, toLex (n, []))
  | .b v => toLex (2, toLex (if v then 1 else 0, []))
  | .null => toLex (3, toLex (0, []))

instance : LinearOrder Value :=
  LinearOrder.lift' Value.encode (by
    intro a b h
    cases a <;> cases b <;>
      simp only [Value.encode, toLex_inj, Prod.mk.injEq] at h <;>
      try simp_all
    rename_i v₁ v₂
    cases v₁ <;> cases v₂ <;> simp_all)

/-- A row: a Python `dict` mapping field names to values, in insertion order. -/
abbrev Record := List (String × Value)

/-- Dict lookup `d[k]` / `d.get(k)`: the value stored at key `k`, if any. -/
def Record.get : Record → String → Option Value
  | [], _ => none
  | kv :: r, k => if kv.1 = k then some kv.2 else Record.get r k

/-- The keys of a row, in order. -/
def Record.keys (r : Record) : List String := r.map Prod.fst

/-- The `dict` invariant: each field name occurs once. -/
def Record.NodupKeys (r : Record) : Prop := (r.map Prod.fst).Nodup

instance (r : Record) : Decidable r.NodupKeys := by
  unfold Record.NodupKeys; infer_instance

/-- Dict assignment `d[k] = v`: overwrite in place if `k` is present, else
append at the end (Python dicts preserve insertion order). -/
def Record.set : Record → String → Value → Record
  | [], k, v => [(k, v)]
  | kv :: r, k, v => if kv.1 = k then (k, v) :: r else kv :: Record.set r k v

/-- Dict update `d.update(other)`: assign each binding of `other` in order. -/
def Record.update (r s : Record) : Record :=
  s.foldl (fun acc kv => acc.set kv.1 kv.2) r

/-- The exceptions the library can raise, with the data the Python message
interpolates.  `typeError`, `keyError` and `attributeError` model the built-in
Python exceptions raised by calling a non-callable, a missing dict key, and a
missing attribute respectively. -/
inductive ETLError where
  | typeError
  | keyError
  | attributeError
  | unknownNormalizer (field : String)
  | mergeConflict (field : String) (newVal oldVal : Value)
  | pivotCollision (key : Value)
deriving DecidableEq, Repr

/-! ## Transform stage (`ETLStreamingStep`)

`__init__` stores `row_transform` (possibly `None`) in `self.step`; `run`
iterates the input and yields `self.step(row)` for each row.  When `self.step`
is `None`, Python raises `TypeError` at the first call, so `run` is modelled in
the `Except` monad.  The separate `_step` method returns `self.step(row)` when
`self.step` is truthy and `row` otherwise; `run` never calls it. -/

def ETLStreamingStep.run {α : Type} (step : Option (α → α)) (data : List α) :
    Except ETLError (List α) :=
  data.mapM (fun row =>
    match step with
    | some f => Except.ok (f row)
    | none => Except.error ETLError.typeError)

/-- The `_step` method of `ETLStreamingStep` (unused by `run`). -/
def ETLStreamingStep.stepMethod {α : Type} (step : Option (α → α)) (row : α) : α :=
  match step with
  | some f => f row
  | none => row

/-! ## Split stage (`ETLSplitStep`)

`__init__` stores `row_splitter or self._step`, so a missing splitter falls
back to the method wrapping a row in a one-element list.  `run` is the nested
loop `for row in data: for split in self.step(row): yield split`. -/

/-- The nested yield loop of `ETLSplitStep.run`. -/
def splitLoop {α : Type} (g : α → List α) : List α → List α
  | [] => []
  | row :: rest => g row ++ splitLoop g rest

def ETLSplitStep.run {α : Type} (step : Option (α → List α)) (data : List α) : List α :=
  splitLoop (step.getD (fun row => [row])) data

/-! ## Filter stage (`ETLFilterStep`) -/

def ETLFilterStep.run {α : Type} (filter_func : α → Bool) (data : List α) : List α :=
  data.filter filter_func

/-! ## Aggregation stage (`ETLAggStep`)

`run` sorts the materialised input with `sorted(list(data), key=self._key_func)`
(a stable ascending sort, modelled by `List.insertionSort`, which is likewise
stable) and then walks it with `itertools.groupby`, which cuts the sorted list
into maximal runs of `==`-equal keys, pairing each run with its key
(`chunkBy`).  For each `(key, group)` it starts the output row from
`key._asdict()` — an `AttributeError` unless the key value carries namedtuple
field structure, hence the `asdict : κ → Option Record` parameter — and then
merges in the added fields: `update` with `self._add_fields(group)` when the
configuration is callable, or with `{name: func(group) for ...}` when it is a
dict.  Keys are compared with the ambient total order (`sorted`) and equality
(`groupby`), modelled by a `LinearOrder` on the key type. -/

/-- The two supported shapes of `add_fields`: a whole-mapping callable or a
dict of per-field builders (each builder may raise). -/
inductive AddFields (α : Type) where
  | callable (f : List α → Except ETLError Record)
  | dict (m : List (String × (List α → Except ETLError Value)))

/-- `sorted(list(data), key=key_func)`: stable ascending sort by key. -/
def sortByKey {α κ : Type} [LinearOrder κ] (keyf : α → κ) (data : List α) : List α :=
  data.insertionSort (fun a b => keyf a ≤ keyf b)

/-- `itertools.groupby(d, key=key_func)`: cut a list into maximal runs of
equal key, pairing each run with its key. -/
def chunkBy {α κ : Type} [DecidableEq κ] (keyf : α → κ) : List α → List (κ × List α)
  | [] => []
  | a :: as =>
    match chunkBy keyf as with
    | [] => [(keyf a, [a])]
    | (k, g) :: rest =>
      if keyf a = k then (k, a :: g) :: rest
      else (keyf a, [a]) :: (k, g) :: rest

/-- The groups produced inside `ETLAggStep.run`: sort, then group. -/
def aggGroups {α κ : Type} [LinearOrder κ] (keyf : α → κ) (data : List α) :
    List (κ × List α) :=
  chunkBy keyf (sortByKey keyf data)

/-- The body of the `for key, group in groupby(...)` loop: seed the output row
with `key._asdict()` and merge in the configured added fields. -/
def buildAggRow {α κ : Type} (asdict : κ → Option Record) (af : AddFields α)
    (kg : κ × List α) : Except ETLError Record :=
  match asdict kg.1 with
  | none => Except.error ETLError.attributeError
  | some base =>
    match af with
    | .callable f => (f kg.2).map (fun u => base.update u)
    | .dict m =>
      (m.mapM (fun (nf : String × (List α → Except ETLError Value)) =>
        (nf.2 kg.2).map (fun v => (nf.1, v)))).map
        (fun pairs => base.update pairs)

def ETLAggStep.run {α κ : Type} [LinearOrder κ] (keyf : α → κ)
    (asdict : κ → Option Record) (af : AddFields α) (data : List α) :
    Except ETLError (List Record) :=
  (aggGroups keyf data).mapM (buildAggRow asdict af)

/-- `_get_grouping_key(fields)`: the derived key function when `key_func` is a
list of field names — the tuple of the row's values at those fields (the
claims apply it only to rows containing every listed field; a missing field,
a `KeyError` in Python, is represented by `Value.null`). -/
def get_grouping_key (fields : List String) (row : Record) : List Value :=
  fields.map (fun f => (Record.get row f).getD Value.null)

/-- `key._asdict()` for a key produced by `_get_grouping_key(fields)`: the
namedtuple's ordered mapping from field name to component. -/
def groupingKeyAsdict (fields : List String) (k : List Value) : Option Record :=
  some (fields.zip k)

/-! ## Collaborators -/

/-- Python `+` as used by `sum`: defined on numbers, `TypeError` otherwise. -/
def pyAdd : Value → Value → Except ETLError Value
  | .i a, .i b => Except.ok (Value.i (a + b))
  | _, _ => Except.error ETLError.typeError

/-- `sum_by_field(field)`: the field builder
`lambda group: sum(map(lambda row: row[field], group))` — sum the field's
values across the group, starting from `0`; a missing field raises `KeyError`. -/
def sum_by_field (field : String) : List Record → Except ETLError Value :=
  fun group =>
    group.foldlM
      (fun acc row =>
        match Record.get row field with
        | some v => pyAdd acc v
        | none => Except.error ETLError.keyError)
      (Value.i 0)

/-- One entry of a value-normalizer specification: a rewrite function, a
rewrite mapping, or anything else (neither callable nor a dict). -/
inductive NormEntry where
  | func (f : Value → Value)
  | table (m : List (Value × Value))
  | invalid

/-- One iteration of the loop inside `norm_values`: look the field up in the
specification with `value_norms.get(key, {})` — note the empty-dict default —
then rewrite the value by the callable, or by `norm.get(val, val)` for a
mapping, or raise `Unknown normalizer` otherwise, and store the result. -/
def normStep (norms : String → Option NormEntry) (output : Record)
    (kv : String × Value) : Except ETLError Record :=
  match (norms kv.1).getD (NormEntry.table []) with
  | .func f => Except.ok (output.set kv.1 (f kv.2))
  | .table m => Except.ok (output.set kv.1 ((m.lookup kv.2).getD kv.2))
  | .invalid => Except.error (ETLError.unknownNormalizer kv.1)

/-- The function returned by `get_value_normalizer(value_norms)`. -/
def norm_values (norms : String → Option NormEntry) (row : Record) :
    Except ETLError Record :=
  row.foldlM (normStep norms) []

/-- One iteration of the inner loop of `merge_fields`: insert an unseen field,
keep an agreeing one, and raise `MergeConflict`-style data (field, new value,
stored value) on disagreement. -/
def mergeStep (out : Record) (kv : String × Value) : Except ETLError Record :=
  match Record.get out kv.1 with
  | none => Except.ok (out.set kv.1 kv.2)
  | some v0 =>
    if v0 = kv.2 then Except.ok out
    else Except.error (ETLError.mergeConflict kv.1 kv.2 v0)

/-- The inner `for key, val in row.items()` loop of `merge_fields`. -/
def mergeRow (output row : Record) : Except ETLError Record :=
  row.foldlM mergeStep output

/-- `merge_fields(group)`: fold every row of the group into an initially empty
output dict. -/
def merge_fields (group : List Record) : Except ETLError Record :=
  group.foldlM mergeRow []

/-- No field is given two different values by any two rows of the group (the
hypothesis under which merging can succeed). -/
def consistentGroup (g : List Record) : Prop :=
  ∀ r1 ∈ g, ∀ r2 ∈ g, ∀ kv1 ∈ r1, ∀ kv2 ∈ r2, kv1.1 = kv2.1 → kv1.2 = kv2.2

instance (g : List Record) : Decidable (consistentGroup g) := by
  unfold consistentGroup; infer_instance

/-- The value the first row of the group (in group order) gives to field `k`,
if any row does. -/
def groupGet (g : List Record) (k : String) : Option Value :=
  g.findSome? (fun r => Record.get r k)

/-- Python `str(value)` (a string value is itself; others use Python's
rendering). -/
def pyStr : Value → List Char
  | .s cs => cs
  | .i n => (toString n).toList
  | .b true => "True".toList
  | .b false => "False".toList
  | .null => "None".toList

/-- Python `'-'.join(parts)`. -/
def pyJoin (sep : List Char) : List (List Char) → List Char
  | [] => []
  | [p] => p
  | p :: ps => p ++ sep ++ pyJoin sep ps

/-- Python `text.split(c)` for a single-character separator: split at every
occurrence, keeping empty pieces. -/
def splitOnChar (c : Char) : List Char → List (List Char)
  | [] => [[]]
  | x :: xs =>
    if x = c then [] :: splitOnChar c xs
    else
      match splitOnChar c xs with
      | [] => [[x]]
      | p :: ps => (x :: p) :: ps

/-- The `key_func` returned by `compound_key_func_gen(fields, ...)`:
`'-'.join([str(row[field]) for field in fields])`; a missing field raises
`KeyError`, modelled by `none`. -/
def compound_key_func (fields : List String) (row : Record) : Option (List Char) :=
  (fields.mapM (fun f => Record.get row f)).map
    (fun vs => pyJoin ['-'] (vs.map pyStr))

/-- The `inverse_key_func` returned by `compound_key_func_gen`:
`dict(zip(fields, key.split('-')))`, then apply each inverse transform to its
field (the claims use an empty transform table). -/
def inverse_key_func (fields : List String)
    (inv_transforms : List (String × (Value → Value))) (key : List Char) : Record :=
  let row : Record :=
    (fields.zip ((splitOnChar '-' key).map (fun p => Value.s p)))
  inv_transforms.foldl
    (fun r kf => r.set kf.1 (kf.2 ((Record.get r kf.1).getD Value.null))) row

/-! ## Concrete inputs used by the scenario claims and counterexamples -/

/-- The three input rows of the end-to-end aggregation scenario. -/
def c1Input : List Record :=
  [ [("state", Value.s "NY".toList), ("year", Value.i 2020), ("votes", Value.i 10)],
    [("state", Value.s "NY".toList), ("year", Value.i 2020), ("votes", Value.i 5)],
    [("state", Value.s "CA".toList), ("year", Value.i 2020), ("votes", Value.i 7)] ]

/-- A caller-supplied opaque key-extraction function returning a plain integer
(the row's "v" field).  Integers support total ordering and equality, but a
Python `int` has no `_asdict` attribute, so its key expansion is `none`. -/
def intKeyFunc (r : Record) : Int :=
  match Record.get r "v" with
  | some (Value.i n) => n
  | _ => 0

/-! ## Basic lemmas about the `Except` monad and `Record` operations -/

lemma exceptBind_ok {ε α β : Type} (a : α) (f : α → Except ε β) :
    (Except.ok a >>= f) = f a := rfl

lemma exceptBind_error {ε α β : Type} (e : ε) (f : α → Except ε β) :
    ((Except.error e : Except ε α) >>= f) = Except.error e := rfl

lemma Record.get_set_self (r : Record) (k : String) (v : Value) :
    (r.set k v).get k = some v := by
  induction r with
  | nil => simp [Record.set, Record.get]
  | cons kv r ih =>
    by_cases h : kv.1 = k
    · simp [Record.set, h, Record.get]
    · simp [Record.set, h, Record.get, ih]

lemma Record.get_set_ne (r : Record) {k k' : String} (v : Value) (h : k' ≠ k) :
    (r.set k v).get k' = r.get k' := by
  induction r with
  | nil => simp [Record.set, Record.get, Ne.symm h]
  | cons kv r ih =>
    by_cases hk : kv.1 = k
    · simp [Record.set, hk, Record.get, Ne.symm h]
    · simp [Record.set, hk, Record.get, ih]

lemma Record.get_append (r s : Record) (k : String) :
    Record.get (r ++ s) k = (Record.get r k).or (Record.get s k) := by
  induction r with
  | nil => simp [Record.get, Option.none_or]
  | cons kv r ih =>
    by_cases h : kv.1 = k <;> simp [Record.get, h, ih]

lemma Record.set_eq_append {r : Record} {k : String} (v : Value)
    (h : r.get k = none) : r.set k v = r ++ [(k, v)] := by
  induction r with
  | nil => rfl
  | cons kv r ih =>
    by_cases hk : kv.1 = k
    · rw [Record.get, if_pos hk] at h
      exact absurd h (by simp)
    · rw [Record.get, if_neg hk] at h
      simp [Record.set, hk, ih h]

lemma Record.mem_of_get_eq_some {r : Record} {k : String} {v : Value}
    (h : r.get k = some v) : (k, v) ∈ r := by
  induction r with
  | nil => simp [Record.get] at h
  | cons kv r ih =>
    by_cases hk : kv.1 = k
    · rw [Record.get, if_pos hk] at h
      obtain rfl : kv.2 = v := by injection h
      exact List.mem_cons.mpr (Or.inl (by rw [← hk]))
    · rw [Record.get, if_neg hk] at h
      exact List.mem_cons_of_mem _ (ih h)

lemma Record.get_eq_some_of_mem {r : Record} (hnd : r.NodupKeys) {k : String}
    {v : Value} (h : (k, v) ∈ r) : r.get k = some v := by
  induction r with
  | nil => cases h
  | cons kv r ih =>
    rw [Record.NodupKeys, List.map_cons, List.nodup_cons] at hnd
    rcases List.mem_cons.mp h with h1 | h1
    · subst h1
      simp [Record.get]
    · have hm : k ∈ r.map Prod.fst := List.mem_map.mpr ⟨(k, v), h1, rfl⟩
      have hne : kv.1 ≠ k := fun e => hnd.1 (e ▸ hm)
      simp [Record.get, hne, ih hnd.2 h1]

lemma Record.get_eq_none_iff {r : Record} {k : String} :
    r.get k = none ↔ k ∉ Record.keys r := by
  induction r with
  | nil => simp [Record.get, Record.keys]
  | cons kv r ih =>
    rw [Record.get, Record.keys, List.map_cons]
    by_cases hk : kv.1 = k
    · simp [hk]
    · have hkk : ¬k = kv.1 := fun h => hk h.symm
      rw [if_neg hk, ih]
      simp [Record.keys, List.mem_cons, hkk]

lemma Record.get_update_of_not_mem : ∀ {s r : Record} {n : String},
    n ∉ Record.keys s → (r.update s).get n = r.get n := by
  intro s
  induction s with
  | nil => intro r n _; rfl
  | cons kv s ih =>
    obtain ⟨k0, v0⟩ := kv
    intro r n hn
    rw [Record.keys, List.map_cons, List.mem_cons] at hn
    push_neg at hn
    show ((r.set k0 v0).update s).get n = r.get n
    rw [ih hn.2, Record.get_set_ne _ _ hn.1]

lemma Record.get_update_of_get_some : ∀ {s : Record}, s.NodupKeys →
    ∀ {r : Record} {n : String} {v : Value},
      s.get n = some v → (r.update s).get n = some v := by
  intro s
  induction s with
  | nil => intro _ r n v h; simp [Record.get] at h
  | cons kv s ih =>
    obtain ⟨k0, v0⟩ := kv
    intro hnd r n v h
    rw [Record.NodupKeys, List.map_cons, List.nodup_cons] at hnd
    by_cases hk : k0 = n
    · subst hk
      rw [Record.get, if_pos rfl] at h
      obtain rfl : v0 = v := by injection h
      show ((r.set k0 v0).update s).get k0 = some v0
      rw [Record.get_update_of_not_mem hnd.1, Record.get_set_self]
    · rw [Record.get, if_neg hk] at h
      exact ih hnd.2 h

/-! ## The Split stage flattens -/

lemma splitLoop_eq_flatten {α : Type} (g : α → List α) (data : List α) :
    splitLoop g data = (data.map g).flatten := by
  induction data with
  | nil => rfl
  | cons row rest ih => simp [splitLoop, ih]

/-- C7: the Split stage's output is the concatenation of `g(input[i])` in
input order; its total length is the sum of `len(g(r))` over the input rows
(so a row whose expansion is empty contributes nothing). -/
theorem split_run_concat {α : Type} (g : α → List α) (data : List α) :
    ETLSplitStep.run (some g) data = (data.map g).flatten ∧
      (ETLSplitStep.run (some g) data).length
        = (data.map (fun r => (g r).length)).sum := by
  have h : ETLSplitStep.run (some g) data = (data.map g).flatten :=
    splitLoop_eq_flatten g data
  refine ⟨h, ?_⟩
  rw [h, List.length_flatten, List.map_map]
  rfl

/-- C4: the code slip in the Transform stage.  Constructed with no transform
function, `run` calls `self.step(row)` with `self.step = None` and raises
`TypeError` on the first row instead of passing it through; the pass-through
behaviour the spec describes lives in the `_step` method, which `run` never
calls. -/
theorem transform_default_is_not_identity :
    ETLStreamingStep.run (none : Option (Record → Record)) [[("a", Value.i 1)]]
        = Except.error ETLError.typeError
      ∧ ETLStreamingStep.stepMethod (none : Option (Record → Record))
          [("a", Value.i 1)]
        = [("a", Value.i 1)] :=
  ⟨rfl, rfl⟩

/-- C1: the end-to-end aggregation scenario: grouping the three vote rows by
`["state", "year"]` with the added field `total = sum_by_field("votes")`
produces exactly the CA row then the NY row, in ascending key order. -/
theorem agg_end_to_end_scenario :
    ETLAggStep.run (get_grouping_key ["state", "year"])
        (groupingKeyAsdict ["state", "year"])
        (AddFields.dict [("total", sum_by_field "votes")]) c1Input
      = Except.ok
        [ [("state", Value.s "CA".toList), ("year", Value.i 2020),
            ("total", Value.i 7)],
          [("state", Value.s "NY".toList), ("year", Value.i 2020),
            ("total", Value.i 15)] ] :=
  rfl

/-! ## Compound key round trip -/

lemma splitOnChar_of_not_mem {c : Char} : ∀ {l : List Char}, c ∉ l →
    splitOnChar c l = [l] := by
  intro l
  induction l with
  | nil => intro _; rfl
  | cons x xs ih =>
    intro h
    have hx : ¬x = c := fun e => h (by simp [e])
    have hxs : c ∉ xs := fun e => h (List.mem_cons_of_mem _ e)
    rw [splitOnChar, if_neg hx, ih hxs]

lemma splitOnChar_append {c : Char} : ∀ {a : List Char} (b : List Char), c ∉ a →
    splitOnChar c (a ++ c :: b) = a :: splitOnChar c b := by
  intro a
  induction a with
  | nil => intro b _; simp [splitOnChar]
  | cons x a' ih =>
    intro b h
    have hx : ¬x = c := fun e => h (by simp [e])
    have ha : c ∉ a' := fun e => h (List.mem_cons_of_mem _ e)
    rw [List.cons_append, splitOnChar, if_neg hx, ih b ha]

/-- C9: the compound-key round trip over fields `["a", "b"]` with no inverse
transforms: for delimiter-free string values, the key function produces
`va-vb` and the inverse key function reconstructs the partial record. -/
theorem compound_key_round_trip (va vb : List Char)
    (ha : '-' ∉ va) (hb : '-' ∉ vb) :
    compound_key_func ["a", "b"] [("a", Value.s va), ("b", Value.s vb)]
        = some (va ++ '-' :: vb)
      ∧ inverse_key_func ["a", "b"] [] (va ++ '-' :: vb)
        = [("a", Value.s va), ("b", Value.s vb)] := by
  constructor
  · have h1 : compound_key_func ["a", "b"] [("a", Value.s va), ("b", Value.s vb)]
        = some ((va ++ ['-']) ++ vb) := rfl
    rw [h1, List.append_assoc]
    exact rfl
  · have hsplit : splitOnChar '-' (va ++ '-' :: vb) = [va, vb] := by
      rw [splitOnChar_append vb ha, splitOnChar_of_not_mem hb]
    simp only [inverse_key_func, hsplit]
    rfl

/-- Witness for C9 at the spec's concrete values `"1"` and `"x"`. -/
theorem compound_key_round_trip_witness :
    ('-' ∉ ['1']) ∧ ('-' ∉ ['x'])
      ∧ compound_key_func ["a", "b"]
            [("a", Value.s ['1']), ("b", Value.s ['x'])]
          = some ['1', '-', 'x']
      ∧ inverse_key_func ["a", "b"] [] ['1', '-', 'x']
          = [("a", Value.s ['1']), ("b", Value.s ['x'])] :=
  ⟨by decide, by decide,
    (compound_key_round_trip ['1'] ['x'] (by decide) (by decide)).1,
    (compound_key_round_trip ['1'] ['x'] (by decide) (by decide)).2⟩

/-! ## The value normalizer and unlisted fields -/

lemma normStep_ok_shape {norms : String → Option NormEntry} {acc : Record}
    {kv : String × Value} {acc1 : Record}
    (he : normStep norms acc kv = Except.ok acc1) : ∃ x, acc1 = acc.set kv.1 x := by
  unfold normStep at he
  cases h : (norms kv.1).getD (NormEntry.table []) <;> rw [h] at he
  · injection he with h2
    exact ⟨_, h2.symm⟩
  · injection he with h2
    exact ⟨_, h2.symm⟩
  · exact Except.noConfusion he

lemma norm_foldlM_persist (norms : String → Option NormEntry) :
    ∀ (row : Record) (acc out : Record),
      List.foldlM (normStep norms) acc row = Except.ok out →
      ∀ k, k ∉ Record.keys row → out.get k = acc.get k := by
  intro row
  induction row with
  | nil =>
    intro acc out h k _
    rw [List.foldlM_nil] at h
    injection h with h2
    rw [h2]
  | cons kv0 rest ih =>
    intro acc out h k hk
    rw [List.foldlM_cons] at h
    cases hstep : normStep norms acc kv0 with
    | error e =>
      rw [hstep, exceptBind_error] at h
      exact Except.noConfusion h
    | ok acc1 =>
      rw [hstep, exceptBind_ok] at h
      rw [Record.keys, List.map_cons, List.mem_cons] at hk
      push_neg at hk
      obtain ⟨x, rfl⟩ := normStep_ok_shape hstep
      rw [ih _ _ h k hk.2, Record.get_set_ne _ _ hk.1]

lemma norm_values_passthrough_aux (norms : String → Option NormEntry) :
    ∀ (row : Record) (acc out : Record), Record.NodupKeys row →
      List.foldlM (normStep norms) acc row = Except.ok out →
      ∀ kv ∈ row, norms kv.1 = none → out.get kv.1 = some kv.2 := by
  intro row
  induction row with
  | nil =>
    intro acc out _ _ kv hkv
    cases hkv
  | cons kv0 rest ih =>
    intro acc out hnd h kv hkv hn
    rw [List.foldlM_cons] at h
    cases hstep : normStep norms acc kv0 with
    | error e =>
      rw [hstep, exceptBind_error] at h
      exact Except.noConfusion h
    | ok acc1 =>
      rw [hstep, exceptBind_ok] at h
      rw [Record.NodupKeys, List.map_cons, List.nodup_cons] at hnd
      rcases List.mem_cons.mp hkv with h1 | h1
      · subst h1
        have hacc1 : acc1 = acc.set kv.1 kv.2 := by
          unfold normStep at hstep
          rw [hn] at hstep
          injection hstep with h2
          exact h2.symm
        rw [norm_foldlM_persist norms rest acc1 out h _ hnd.1, hacc1,
          Record.get_set_self]
      · exact ih acc1 out hnd.2 h kv h1 hn

/-- C5 counterexample: the claim says a field with no entry in the
specification must fail with an "unrecognized field" error and is never passed
through.  On the code, `value_norms.get(key, {})` defaults a missing entry to
the empty dict, whose `norm.get(val, val)` lookup passes the value through
unchanged, and no error is raised. -/
theorem norm_values_unlisted_counterexample :
    norm_values (fun _ => none) [("x", Value.i 1)] = Except.ok [("x", Value.i 1)]
      ∧ ∀ e, norm_values (fun _ => none) [("x", Value.i 1)] ≠ Except.error e :=
  ⟨rfl, fun _ h => Except.noConfusion h⟩

/-- C5 (amended): a field whose name has no entry in the value-normalizer
specification is passed through unchanged (the missing entry defaults to an
empty rewrite mapping); no error is raised for it. -/
theorem norm_values_unlisted_passthrough (norms : String → Option NormEntry)
    (row out : Record) (hnd : row.NodupKeys)
    (hok : norm_values norms row = Except.ok out) :
    ∀ kv ∈ row, norms kv.1 = none → out.get kv.1 = some kv.2 :=
  norm_values_passthrough_aux norms row [] out hnd hok

/-- Witness for the amended C5 at a concrete record and empty specification. -/
theorem norm_values_unlisted_passthrough_witness :
    Record.NodupKeys [("x", Value.i 1)]
      ∧ Record.get [("x", Value.i 1)] "x" = some (Value.i 1) :=
  ⟨by decide,
    norm_values_unlisted_passthrough (fun _ => none) [("x", Value.i 1)]
      [("x", Value.i 1)] (by decide) rfl ("x", Value.i 1) (by decide) rfl⟩

/-! ## Sorting and grouping: the heart of the Aggregate stage -/

lemma sortByKey_perm {α κ : Type} [LinearOrder κ] (keyf : α → κ) (data : List α) :
    (sortByKey keyf data).Perm data :=
  List.perm_insertionSort _ data

lemma sortByKey_pairwise {α κ : Type} [LinearOrder κ] (keyf : α → κ) (data : List α) :
    List.Pairwise (fun a b => keyf a ≤ keyf b) (sortByKey keyf data) := by
  haveI : IsTotal α (fun a b => keyf a ≤ keyf b) := ⟨fun a b => le_total _ _⟩
  haveI : IsTrans α (fun a b => keyf a ≤ keyf b) := ⟨fun _ _ _ h1 h2 => le_trans h1 h2⟩
  exact List.sorted_insertionSort _ data

lemma chunkBy_eq_nil_iff {α κ : Type} [DecidableEq κ] (keyf : α → κ) {l : List α} :
    chunkBy keyf l = [] ↔ l = [] := by
  cases l with
  | nil => simp [chunkBy]
  | cons a as =>
    cases h : chunkBy keyf as with
    | nil => simp [chunkBy, h]
    | cons kg rest =>
      obtain ⟨k0, g0⟩ := kg
      by_cases hk : keyf a = k0 <;> simp [chunkBy, h, hk]

lemma chunkBy_head_key {α κ : Type} [DecidableEq κ] (keyf : α → κ) (a : α)
    (as : List α) :
    ∃ g rest, chunkBy keyf (a :: as) = (keyf a, g) :: rest := by
  cases h : chunkBy keyf as with
  | nil => exact ⟨[a], [], by simp [chunkBy, h]⟩
  | cons kg rest =>
    obtain ⟨k0, g0⟩ := kg
    by_cases hk : keyf a = k0
    · exact ⟨a :: g0, rest, by simp [chunkBy, h, hk]⟩
    · exact ⟨[a], (k0, g0) :: rest, by simp [chunkBy, h, hk]⟩

lemma chunkBy_cons_inv {α κ : Type} [DecidableEq κ] (keyf : α → κ) {as : List α}
    {k0 : κ} {g0 : List α} {rest : List (κ × List α)}
    (h : chunkBy keyf as = (k0, g0) :: rest) :
    ∃ b bs, as = b :: bs ∧ k0 = keyf b := by
  cases as with
  | nil => simp [chunkBy] at h
  | cons b bs =>
    obtain ⟨g1, r1, he⟩ := chunkBy_head_key keyf b bs
    rw [h] at he
    refine ⟨b, bs, rfl, ?_⟩
    injection he with h1 _
    exact congrArg Prod.fst h1

lemma chunkBy_keys_mem {α κ : Type} [DecidableEq κ] (keyf : α → κ) :
    ∀ (l : List α) (k : κ),
      k ∈ (chunkBy keyf l).map Prod.fst ↔ ∃ x ∈ l, keyf x = k := by
  intro l
  induction l with
  | nil => intro k; simp [chunkBy]
  | cons a as ih =>
    intro k
    cases h : chunkBy keyf as with
    | nil =>
      have has : as = [] := (chunkBy_eq_nil_iff keyf).mp h
      subst has
      simp [chunkBy, eq_comm]
    | cons kg rest =>
      obtain ⟨k0, g0⟩ := kg
      have hih := ih k
      rw [h] at hih
      simp only [List.map_cons, List.mem_cons] at hih
      by_cases hk : keyf a = k0
      · rw [show chunkBy keyf (a :: as) = (k0, a :: g0) :: rest by
          simp [chunkBy, h, hk]]
        simp only [List.map_cons, List.mem_cons]
        constructor
        · intro hm
          obtain ⟨x, hx, hxk⟩ := hih.mp hm
          exact ⟨x, Or.inr hx, hxk⟩
        · rintro ⟨x, hx, hxk⟩
          rcases hx with rfl | hx
          · exact Or.inl (by rw [← hxk, hk])
          · exact hih.mpr ⟨x, hx, hxk⟩
      · rw [show chunkBy keyf (a :: as) = (keyf a, [a]) :: (k0, g0) :: rest by
          simp [chunkBy, h, hk]]
        simp only [List.map_cons, List.mem_cons] at hih ⊢
        constructor
        · intro hm
          rcases hm with hm | hm
          · exact ⟨a, Or.inl rfl, hm.symm⟩
          · obtain ⟨x, hx, hxk⟩ := hih.mp hm
            exact ⟨x, Or.inr hx, hxk⟩
        · rintro ⟨x, hx, hxk⟩
          rcases hx with rfl | hx
          · exact Or.inl hxk.symm
          · exact Or.inr (hih.mpr ⟨x, hx, hxk⟩)

lemma chunkBy_keys_pairwise {α κ : Type} [LinearOrder κ] (keyf : α → κ) :
    ∀ {l : List α}, List.Pairwise (fun x y => keyf x ≤ keyf y) l →
      ((chunkBy keyf l).map Prod.fst).Pairwise (· < ·) := by
  intro l
  induction l with
  | nil => intro _; simp [chunkBy]
  | cons a as ih =>
    intro hp
    obtain ⟨ha, has⟩ := List.pairwise_cons.mp hp
    cases h : chunkBy keyf as with
    | nil =>
      have hnil : as = [] := (chunkBy_eq_nil_iff keyf).mp h
      subst hnil
      simp [chunkBy]
    | cons kg rest =>
      obtain ⟨k0, g0⟩ := kg
      have hih := ih has
      rw [h] at hih
      by_cases hk : keyf a = k0
      · have hchunk : chunkBy keyf (a :: as) = (k0, a :: g0) :: rest := by
          simp [chunkBy, h, hk]
        rw [hchunk]
        simpa using hih
      · have hchunk : chunkBy keyf (a :: as) = (keyf a, [a]) :: (k0, g0) :: rest := by
          simp [chunkBy, h, hk]
        rw [hchunk]
        obtain ⟨b, bs, rfl, hk0⟩ := chunkBy_cons_inv keyf h
        have hble : ∀ x ∈ b :: bs, keyf b ≤ keyf x := by
          intro x hx
          rcases List.mem_cons.mp hx with rfl | hx
          · exact le_refl _
          · exact (List.pairwise_cons.mp has).1 x hx
        rw [List.map_cons, List.pairwise_cons]
        refine ⟨?_, by simpa using hih⟩
        intro k2 hk2
        have hex : ∃ x ∈ b :: bs, keyf x = k2 := by
          have hiff := chunkBy_keys_mem keyf (b :: bs) k2
          rw [h] at hiff
          exact hiff.mp hk2
        obtain ⟨x, hx, rfl⟩ := hex
        have h1 : keyf a ≤ keyf b := ha b (List.mem_cons_self _ _)
        have h2 : keyf a ≠ keyf b := by rw [← hk0]; exact hk
        exact lt_of_lt_of_le (lt_of_le_of_ne h1 h2) (hble x hx)

lemma chunkBy_filter {α κ : Type} [LinearOrder κ] (keyf : α → κ) :
    ∀ {l : List α}, List.Pairwise (fun x y => keyf x ≤ keyf y) l →
      ∀ {k : κ} {g : List α}, (k, g) ∈ chunkBy keyf l →
        g = l.filter (fun x => decide (keyf x = k)) := by
  intro l
  induction l with
  | nil => intro _ k g hm; simp [chunkBy] at hm
  | cons a as ih =>
    intro hp k g hm
    obtain ⟨ha, has⟩ := List.pairwise_cons.mp hp
    cases h : chunkBy keyf as with
    | nil =>
      have hnil : as = [] := (chunkBy_eq_nil_iff keyf).mp h
      subst hnil
      rw [show chunkBy keyf [a] = [(keyf a, [a])] from rfl] at hm
      rcases List.mem_cons.mp hm with he | he
      · injection he with h1 h2
        subst h1
        subst h2
        simp [List.filter_cons]
      · simp at he
    | cons kg rest =>
      obtain ⟨k0, g0⟩ := kg
      have hpkeys := chunkBy_keys_pairwise keyf has
      rw [h] at hpkeys
      by_cases hk : keyf a = k0
      · have hchunk : chunkBy keyf (a :: as) = (k0, a :: g0) :: rest := by
          simp [chunkBy, h, hk]
        rw [hchunk] at hm
        rcases List.mem_cons.mp hm with he | he
        · injection he with h1 h2
          subst h1
          subst h2
          have hg0 : g0 = as.filter (fun x => decide (keyf x = k)) :=
            ih has (by rw [h, ← hk]; exact List.mem_cons_self _ _)
          rw [hg0]
          simp [List.filter_cons, hk]
        · have hmem : (k, g) ∈ chunkBy keyf as := by
            rw [h]
            exact List.mem_cons_of_mem _ he
          have hg := ih has hmem
          have hkne : ¬keyf a = k := by
            have hkmem : k ∈ rest.map Prod.fst := List.mem_map.mpr ⟨(k, g), he, rfl⟩
            have hlt := (List.pairwise_cons.mp (by simpa using hpkeys)).1 k hkmem
            rw [hk]
            exact ne_of_lt hlt
          rw [hg]
          simp [List.filter_cons, hkne]
      · have hchunk : chunkBy keyf (a :: as) = (keyf a, [a]) :: (k0, g0) :: rest := by
          simp [chunkBy, h, hk]
        rw [hchunk] at hm
        obtain ⟨b, bs, rfl, hk0⟩ := chunkBy_cons_inv keyf h
        have hble : ∀ x ∈ b :: bs, keyf b ≤ keyf x := by
          intro x hx
          rcases List.mem_cons.mp hx with rfl | hx
          · exact le_refl _
          · exact (List.pairwise_cons.mp has).1 x hx
        have h1 : keyf a ≤ keyf b := ha b (List.mem_cons_self _ _)
        have h2 : keyf a ≠ keyf b := by rw [← hk0]; exact hk
        rcases List.mem_cons.mp hm with he | he
        · injection he with h3 h4
          subst h3
          subst h4
          have hnil : (b :: bs).filter (fun x => decide (keyf x = keyf a)) = [] := by
            rw [List.filter_eq_nil_iff]
            intro x hx
            have hgt := lt_of_lt_of_le (lt_of_le_of_ne h1 h2) (hble x hx)
            simp only [decide_eq_true_eq]
            exact ne_of_gt hgt
          simp [List.filter_cons, hnil]
        · have hmem : (k, g) ∈ chunkBy keyf (b :: bs) := by rw [h]; exact he
          have hg := ih has hmem
          have hkne : ¬keyf a = k := by
            have hkmem : k ∈ (chunkBy keyf (b :: bs)).map Prod.fst :=
              List.mem_map.mpr ⟨(k, g), hmem, rfl⟩
            obtain ⟨x, hx, rfl⟩ := (chunkBy_keys_mem keyf (b :: bs) _).mp hkmem
            exact ne_of_lt (lt_of_lt_of_le (lt_of_le_of_ne h1 h2) (hble x hx))
          rw [hg]
          simp [List.filter_cons, hkne]

/-- C2: Aggregate grouping is order-independent.  For permuted inputs the two
runs produce the same keys (here even the same ascending key list) and, for
each key, groups holding the same multiset of records. -/
theorem agg_grouping_perm_invariant {α κ : Type} [LinearOrder κ] (keyf : α → κ)
    (l₁ l₂ : List α) (hperm : l₁.Perm l₂) :
    (aggGroups keyf l₁).map Prod.fst = (aggGroups keyf l₂).map Prod.fst ∧
      ∀ k g₁ g₂, (k, g₁) ∈ aggGroups keyf l₁ → (k, g₂) ∈ aggGroups keyf l₂ →
        (g₁ : Multiset α) = (g₂ : Multiset α) := by
  have hs₁ := sortByKey_pairwise keyf l₁
  have hs₂ := sortByKey_pairwise keyf l₂
  constructor
  · have hso₁ : ((aggGroups keyf l₁).map Prod.fst).Pairwise (· < ·) :=
      chunkBy_keys_pairwise keyf hs₁
    have hso₂ : ((aggGroups keyf l₂).map Prod.fst).Pairwise (· < ·) :=
      chunkBy_keys_pairwise keyf hs₂
    have hnd₁ : ((aggGroups keyf l₁).map Prod.fst).Nodup :=
      hso₁.imp (fun h => ne_of_lt h)
    have hnd₂ : ((aggGroups keyf l₂).map Prod.fst).Nodup :=
      hso₂.imp (fun h => ne_of_lt h)
    have hmem : ∀ k, k ∈ (aggGroups keyf l₁).map Prod.fst ↔
        k ∈ (aggGroups keyf l₂).map Prod.fst := by
      intro k
      rw [show aggGroups keyf l₁ = chunkBy keyf (sortByKey keyf l₁) from rfl,
        show aggGroups keyf l₂ = chunkBy keyf (sortByKey keyf l₂) from rfl,
        chunkBy_keys_mem, chunkBy_keys_mem]
      constructor
      · rintro ⟨x, hx, hk⟩
        exact ⟨x, ((sortByKey_perm keyf l₂).mem_iff).mpr
          (hperm.mem_iff.mp (((sortByKey_perm keyf l₁).mem_iff).mp hx)), hk⟩
      · rintro ⟨x, hx, hk⟩
        exact ⟨x, ((sortByKey_perm keyf l₁).mem_iff).mpr
          (hperm.mem_iff.mpr (((sortByKey_perm keyf l₂).mem_iff).mp hx)), hk⟩
    have hp : ((aggGroups keyf l₁).map Prod.fst).Perm
        ((aggGroups keyf l₂).map Prod.fst) :=
      List.perm_of_nodup_nodup_toFinset_eq hnd₁ hnd₂
        (by ext k; simp only [List.mem_toFinset]; exact hmem k)
    haveI : IsAntisymm κ (· < ·) := ⟨fun a b h1 h2 => absurd h2 (lt_asymm h1)⟩
    exact List.eq_of_perm_of_sorted hp hso₁ hso₂
  · intro k g₁ g₂ h1 h2
    have e₁ : g₁ = (sortByKey keyf l₁).filter (fun x => decide (keyf x = k)) :=
      chunkBy_filter keyf hs₁ h1
    have e₂ : g₂ = (sortByKey keyf l₂).filter (fun x => decide (keyf x = k)) :=
      chunkBy_filter keyf hs₂ h2
    rw [e₁, e₂, Multiset.coe_eq_coe]
    exact (List.Perm.filter _ (sortByKey_perm keyf l₁)).trans
      ((List.Perm.filter _ hperm).trans
        (List.Perm.filter _ (sortByKey_perm keyf l₂)).symm)

/-- Witness for C2 on a concrete permuted pair of inputs (keys are the record
values themselves). -/
theorem agg_grouping_perm_invariant_witness :
    ([2, 1, 1] : List ℕ).Perm [1, 1, 2]
      ∧ (aggGroups (fun n : ℕ => n) [2, 1, 1]).map Prod.fst
          = (aggGroups (fun n : ℕ => n) [1, 1, 2]).map Prod.fst :=
  ⟨by decide,
    (agg_grouping_perm_invariant (fun n : ℕ => n) [2, 1, 1] [1, 1, 2] (by decide)).1⟩

/-! ## Opaque keys and the `_asdict` expansion -/

lemma mapM_ok_of_forall_ok {α β : Type} (f : α → Except ETLError β) :
    ∀ l : List α, (∀ x ∈ l, ∃ y, f x = Except.ok y) →
      ∃ out, l.mapM f = Except.ok out ∧ out.length = l.length := by
  intro l
  induction l with
  | nil => intro _; exact ⟨[], rfl, rfl⟩
  | cons a l ih =>
    intro h
    obtain ⟨y, hy⟩ := h a (List.mem_cons_self _ _)
    obtain ⟨out, hout, hlen⟩ := ih (fun x hx => h x (List.mem_cons_of_mem _ hx))
    refine ⟨y :: out, ?_, by simp [hlen]⟩
    rw [List.mapM_cons, hy, exceptBind_ok, hout, exceptBind_ok]
    rfl

lemma aggGroups_length {α κ : Type} [LinearOrder κ] (keyf : α → κ)
    (data : List α) :
    (aggGroups keyf data).length = (data.map keyf).toFinset.card := by
  have hs := sortByKey_pairwise keyf data
  have hnd : ((aggGroups keyf data).map Prod.fst).Nodup :=
    (chunkBy_keys_pairwise keyf hs).imp (fun h => ne_of_lt h)
  have h1 : (aggGroups keyf data).length
      = ((aggGroups keyf data).map Prod.fst).length := (List.length_map _ _).symm
  rw [h1, ← List.toFinset_card_of_nodup hnd]
  congr 1
  ext k
  rw [List.mem_toFinset, List.mem_toFinset,
    show aggGroups keyf data = chunkBy keyf (sortByKey keyf data) from rfl,
    chunkBy_keys_mem, List.mem_map]
  constructor
  · rintro ⟨x, hx, hk⟩
    exact ⟨x, (sortByKey_perm keyf data).mem_iff.mp hx, hk⟩
  · rintro ⟨x, hx, hk⟩
    exact ⟨x, (sortByKey_perm keyf data).mem_iff.mpr hx, hk⟩

lemma aggGroups_ne_nil {α κ : Type} [LinearOrder κ] (keyf : α → κ)
    {data : List α} (h : data ≠ []) : aggGroups keyf data ≠ [] := by
  intro hc
  have h1 : sortByKey keyf data = [] := (chunkBy_eq_nil_iff keyf).mp hc
  have h2 := (sortByKey_perm keyf data).length_eq
  rw [h1] at h2
  exact h (List.eq_nil_of_length_eq_zero h2.symm)

/-- C6 counterexample: a caller-supplied key-extraction function whose keys
are plain integers supports total ordering and equality, yet the Aggregate
stage fails: `run` unconditionally calls `key._asdict()`, and a Python `int`
has no such attribute, so the first group raises `AttributeError` instead of
yielding an output record. -/
theorem agg_opaque_key_counterexample :
    ETLAggStep.run intKeyFunc (fun _ => none) (AddFields.dict [])
        [[("v", Value.i 1)]]
        = Except.error ETLError.attributeError
      ∧ ∀ out, ETLAggStep.run intKeyFunc (fun _ => none) (AddFields.dict [])
          [[("v", Value.i 1)]] ≠ Except.ok out :=
  ⟨rfl, fun _ h => Except.noConfusion h⟩

/-- C6 (amended): an Aggregate stage built from a caller-supplied key function
is supported provided its keys additionally support expansion into a field
mapping (`_asdict`, as namedtuples do); then a non-empty input yields exactly
one output Record per group of key-equal input Records.  A key supporting only
ordering and equality fails when the first group's output Record is built. -/
theorem agg_opaque_key_with_asdict {α κ : Type} [LinearOrder κ] (keyf : α → κ)
    (expand : κ → Record) (data : List α) (hne : data ≠ []) :
    ∃ out, ETLAggStep.run keyf (fun k => some (expand k)) (AddFields.dict []) data
        = Except.ok out
      ∧ out.length = (data.map keyf).toFinset.card ∧ 0 < out.length := by
  obtain ⟨out, hout, hlen⟩ :=
    mapM_ok_of_forall_ok (buildAggRow (fun k => some (expand k)) (AddFields.dict []))
      (aggGroups keyf data) (fun kg _ => ⟨(expand kg.1), rfl⟩)
  refine ⟨out, hout, ?_, ?_⟩
  · rw [hlen, aggGroups_length]
  · rw [hlen]
    exact List.length_pos.mpr (aggGroups_ne_nil keyf hne)

/-- Witness for the amended C6 at a one-row input with integer keys expanded
back into a single-field record. -/
theorem agg_opaque_key_with_asdict_witness :
    ([[("v", Value.i 1)]] : List Record) ≠ []
      ∧ ∃ out, ETLAggStep.run intKeyFunc (fun k => some [("v", Value.i k)])
            (AddFields.dict []) [[("v", Value.i 1)]] = Except.ok out
          ∧ out.length
              = (([[("v", Value.i 1)]] : List Record).map intKeyFunc).toFinset.card
          ∧ 0 < out.length :=
  ⟨by decide,
    agg_opaque_key_with_asdict intKeyFunc (fun k => [("v", Value.i k)])
      [[("v", Value.i 1)]] (by decide)⟩

/-! ## Field builders win name collisions with the key expansion -/

lemma exceptMap_ok {ε α β : Type} (f : α → β) (a : α) :
    (Except.ok a : Except ε α).map f = Except.ok (f a) := rfl

lemma exceptMap_error {ε α β : Type} (f : α → β) (e : ε) :
    (Except.error e : Except ε α).map f = Except.error e := rfl

lemma mapM_mem_ok {α β : Type} (f : α → Except ETLError β) :
    ∀ (l : List α) (ys : List β), l.mapM f = Except.ok ys →
      ∀ x ∈ l, ∃ y ∈ ys, f x = Except.ok y := by
  intro l
  induction l with
  | nil => intro ys _ x hx; cases hx
  | cons a l ih =>
    intro ys h x hx
    rw [List.mapM_cons] at h
    cases hfa : f a with
    | error e =>
      rw [hfa, exceptBind_error] at h
      exact Except.noConfusion h
    | ok y0 =>
      rw [hfa, exceptBind_ok] at h
      cases hrest : l.mapM f with
      | error e =>
        rw [hrest, exceptBind_error] at h
        exact Except.noConfusion h
      | ok ys0 =>
        rw [hrest, exceptBind_ok] at h
        injection h with h2
        subst h2
        rcases List.mem_cons.mp hx with rfl | hx
        · exact ⟨y0, List.mem_cons_self _ _, hfa⟩
        · obtain ⟨y, hy, hfy⟩ := ih ys0 hrest x hx
          exact ⟨y, List.mem_cons_of_mem _ hy, hfy⟩

lemma buildPairs_facts {α : Type} (grp : List α) :
    ∀ (m : List (String × (List α → Except ETLError Value)))
      (pairs : List (String × Value)),
      m.mapM (fun (nf : String × (List α → Except ETLError Value)) =>
          (nf.2 grp).map (fun v => (nf.1, v))) = Except.ok pairs →
      pairs.map Prod.fst = m.map Prod.fst
        ∧ ∀ (name : String) (fb : List α → Except ETLError Value) (v : Value),
            (name, fb) ∈ m → fb grp = Except.ok v → (name, v) ∈ pairs := by
  intro m
  induction m with
  | nil =>
    intro pairs h
    rw [List.mapM_nil] at h
    injection h with h2
    subst h2
    exact ⟨rfl, fun name fb v hm => absurd hm (List.not_mem_nil _)⟩
  | cons nf m ih =>
    intro pairs h
    rw [List.mapM_cons] at h
    cases hfb : nf.2 grp with
    | error e =>
      rw [hfb, exceptMap_error, exceptBind_error] at h
      exact Except.noConfusion h
    | ok v0 =>
      rw [hfb, exceptMap_ok, exceptBind_ok] at h
      cases hrest : m.mapM (fun (nf : String × (List α → Except ETLError Value)) =>
          (nf.2 grp).map (fun v => (nf.1, v))) with
      | error e =>
        rw [hrest, exceptBind_error] at h
        exact Except.noConfusion h
      | ok pairs0 =>
        rw [hrest, exceptBind_ok] at h
        injection h with h2
        subst h2
        obtain ⟨hfst, hmem⟩ := ih pairs0 hrest
        refine ⟨by simp [hfst], ?_⟩
        intro name fb v hm hv
        rcases List.mem_cons.mp hm with he | he
        · have hn : name = nf.1 := congrArg Prod.fst he
          have hb : fb = nf.2 := congrArg Prod.snd he
          rw [hb] at hv
          have h3 : v0 = v := by
            injection hfb.symm.trans hv
          exact List.mem_cons.mpr (Or.inl (by rw [hn, ← h3]))
        · exact List.mem_cons_of_mem _ (hmem name fb v he hv)

lemma buildAggRow_dict_eq {α κ : Type} (asdict : κ → Option Record)
    (m : List (String × (List α → Except ETLError Value))) (k : κ)
    (grp : List α) (base : Record) (hbase : asdict k = some base) :
    buildAggRow asdict (AddFields.dict m) (k, grp)
      = (m.mapM (fun (nf : String × (List α → Except ETLError Value)) =>
          (nf.2 grp).map (fun v => (nf.1, v)))).map
          (fun pairs => base.update pairs) := by
  have h : buildAggRow asdict (AddFields.dict m) (k, grp)
      = match asdict k with
        | none => Except.error ETLError.attributeError
        | some b2 =>
          (m.mapM (fun (nf : String × (List α → Except ETLError Value)) =>
            (nf.2 grp).map (fun v => (nf.1, v)))).map
            (fun pairs => b2.update pairs) := rfl
  rw [h, hbase]

/-- C3: when a field-builder name collides with a key-expansion field name,
the emitted group record carries the builder's value (the `update` of the
seeded `_asdict` row overwrites it), not the key-expansion value. -/
theorem agg_builder_wins {α κ : Type} [LinearOrder κ] (keyf : α → κ)
    (asdict : κ → Option Record)
    (m : List (String × (List α → Except ETLError Value)))
    (data : List α) (outs : List Record) (k : κ) (g : List α) (base : Record)
    (name : String) (fb : List α → Except ETLError Value) (v : Value)
    (hrun : ETLAggStep.run keyf asdict (AddFields.dict m) data = Except.ok outs)
    (hgrp : (k, g) ∈ aggGroups keyf data)
    (hbase : asdict k = some base)
    (hcol : name ∈ Record.keys base)
    (hmem : (name, fb) ∈ m)
    (hnd : (m.map Prod.fst).Nodup)
    (hfb : fb g = Except.ok v) :
    ∃ out ∈ outs, Record.get out name = some v := by
  obtain ⟨out, houts, hbuild⟩ :=
    mapM_mem_ok (buildAggRow asdict (AddFields.dict m)) (aggGroups keyf data)
      outs hrun (k, g) hgrp
  rw [buildAggRow_dict_eq asdict m k g base hbase] at hbuild
  cases hpairs : m.mapM (fun (nf : String × (List α → Except ETLError Value)) =>
      (nf.2 g).map (fun v => (nf.1, v))) with
  | error e =>
    rw [hpairs, exceptMap_error] at hbuild
    exact Except.noConfusion hbuild
  | ok pairs =>
    rw [hpairs, exceptMap_ok] at hbuild
    injection hbuild with h2
    subst h2
    obtain ⟨hfst, hpmem⟩ := buildPairs_facts g m pairs hpairs
    have hpnd : Record.NodupKeys pairs := by
      unfold Record.NodupKeys
      rw [hfst]
      exact hnd
    have hpget : Record.get pairs name = some v :=
      Record.get_eq_some_of_mem hpnd (hpmem name fb v hmem hfb)
    exact ⟨_, houts, Record.get_update_of_get_some hpnd hpget⟩

/-- Witness for C3: one empty input row, constant integer key expanding to a
record already containing "total" = 0, and a builder writing "total" = 7; the
output record carries 7. -/
theorem agg_builder_wins_witness :
    ("total" ∈ Record.keys [("total", Value.i 0)])
      ∧ ∃ out ∈ [[("total", Value.i 7)]], Record.get out "total" = some (Value.i 7) :=
  ⟨by decide,
    agg_builder_wins (fun _ : Record => (0 : ℤ)) (fun _ => some [("total", Value.i 0)])
      [("total", fun _ => Except.ok (Value.i 7))] [([] : Record)]
      [[("total", Value.i 7)]] 0 [([] : Record)] [("total", Value.i 0)]
      "total" (fun _ => Except.ok (Value.i 7)) (Value.i 7)
      rfl (by decide) rfl (by decide) (List.mem_cons_self _ _) (by decide) rfl⟩

/-! ## Merging groups of rows -/

lemma mergeStep_ok_cases {out : Record} {kv : String × Value} {out1 : Record}
    (h : mergeStep out kv = Except.ok out1) :
    (Record.get out kv.1 = none ∧ out1 = out.set kv.1 kv.2)
      ∨ (Record.get out kv.1 = some kv.2 ∧ out1 = out) := by
  unfold mergeStep at h
  cases hget : Record.get out kv.1 with
  | none =>
    rw [hget] at h
    injection h with h2
    exact Or.inl ⟨rfl, h2.symm⟩
  | some v0 =>
    rw [hget] at h
    replace h : (if v0 = kv.2 then Except.ok out
        else Except.error (ETLError.mergeConflict kv.1 kv.2 v0)) = Except.ok out1 := h
    by_cases he : v0 = kv.2
    · rw [if_pos he] at h
      injection h with h2
      subst he
      exact Or.inr ⟨rfl, h2.symm⟩
    · rw [if_neg he] at h
      exact Except.noConfusion h

lemma mergeStep_error_cases {out : Record} {kv : String × Value} {e : ETLError}
    (h : mergeStep out kv = Except.error e) :
    ∃ v0, Record.get out kv.1 = some v0 ∧ v0 ≠ kv.2
      ∧ e = ETLError.mergeConflict kv.1 kv.2 v0 := by
  unfold mergeStep at h
  cases hget : Record.get out kv.1 with
  | none =>
    rw [hget] at h
    exact Except.noConfusion h
  | some v0 =>
    rw [hget] at h
    replace h : (if v0 = kv.2 then Except.ok out
        else Except.error (ETLError.mergeConflict kv.1 kv.2 v0)) = Except.error e := h
    by_cases he : v0 = kv.2
    · rw [if_pos he] at h
      exact Except.noConfusion h
    · rw [if_neg he] at h
      injection h with h2
      exact ⟨v0, rfl, he, h2.symm⟩

lemma mergeRow_pres : ∀ {row out out' : Record},
    mergeRow out row = Except.ok out' →
    ∀ {k : String} {v : Value},
      Record.get out k = some v → Record.get out' k = some v := by
  intro row
  induction row with
  | nil =>
    intro out out' h k v hv
    rw [mergeRow, List.foldlM_nil] at h
    injection h with h2
    rw [← h2]
    exact hv
  | cons kv rest ih =>
    intro out out' h k v hv
    rw [mergeRow, List.foldlM_cons] at h
    cases hstep : mergeStep out kv with
    | error e =>
      rw [hstep, exceptBind_error] at h
      exact Except.noConfusion h
    | ok out1 =>
      rw [hstep, exceptBind_ok] at h
      have h' : mergeRow out1 rest = Except.ok out' := h
      rcases mergeStep_ok_cases hstep with ⟨hget, rfl⟩ | ⟨_, rfl⟩
      · have hne : k ≠ kv.1 := by
          intro e
          rw [e, hget] at hv
          exact Option.noConfusion hv
        exact ih h' (by rw [Record.get_set_ne _ _ hne]; exact hv)
      · exact ih h' hv

lemma mergeRow_sets : ∀ {row out out' : Record},
    mergeRow out row = Except.ok out' →
    ∀ kv ∈ row, Record.get out' kv.1 = some kv.2 := by
  intro row
  induction row with
  | nil => intro out out' _ kv hkv; cases hkv
  | cons kv0 rest ih =>
    intro out out' h kv hkv
    rw [mergeRow, List.foldlM_cons] at h
    cases hstep : mergeStep out kv0 with
    | error e =>
      rw [hstep, exceptBind_error] at h
      exact Except.noConfusion h
    | ok out1 =>
      rw [hstep, exceptBind_ok] at h
      have h' : mergeRow out1 rest = Except.ok out' := h
      rcases List.mem_cons.mp hkv with rfl | hkv'
      · have h1 : Record.get out1 kv.1 = some kv.2 := by
          rcases mergeStep_ok_cases hstep with ⟨_, rfl⟩ | ⟨hget, rfl⟩
          · exact Record.get_set_self _ _ _
          · exact hget
        exact mergeRow_pres h' h1
      · exact ih h' kv hkv'

lemma merge_foldl_pres : ∀ {gs : List Record} {out out' : Record},
    gs.foldlM mergeRow out = Except.ok out' →
    ∀ {k : String} {v : Value},
      Record.get out k = some v → Record.get out' k = some v := by
  intro gs
  induction gs with
  | nil =>
    intro out out' h k v hv
    rw [List.foldlM_nil] at h
    injection h with h2
    rw [← h2]
    exact hv
  | cons r gs ih =>
    intro out out' h k v hv
    rw [List.foldlM_cons] at h
    cases hstep : mergeRow out r with
    | error e =>
      rw [hstep, exceptBind_error] at h
      exact Except.noConfusion h
    | ok out1 =>
      rw [hstep, exceptBind_ok] at h
      exact ih h (mergeRow_pres hstep hv)

lemma merge_foldl_sets : ∀ {gs : List Record} {out out' : Record},
    gs.foldlM mergeRow out = Except.ok out' →
    ∀ r ∈ gs, ∀ kv ∈ r, Record.get out' kv.1 = some kv.2 := by
  intro gs
  induction gs with
  | nil => intro out out' _ r hr; cases hr
  | cons r0 gs ih =>
    intro out out' h r hr kv hkv
    rw [List.foldlM_cons] at h
    cases hstep : mergeRow out r0 with
    | error e =>
      rw [hstep, exceptBind_error] at h
      exact Except.noConfusion h
    | ok out1 =>
      rw [hstep, exceptBind_ok] at h
      rcases List.mem_cons.mp hr with rfl | hr'
      · exact merge_foldl_pres h (mergeRow_sets hstep kv hkv)
      · exact ih h r hr' kv hkv

lemma mergeRow_prov {P : String → Value → Prop} :
    ∀ {row out : Record},
      (∀ k v, Record.get out k = some v → P k v) →
      (∀ kv ∈ row, P kv.1 kv.2) →
      (∀ {out' : Record}, mergeRow out row = Except.ok out' →
          ∀ k v, Record.get out' k = some v → P k v)
        ∧ ∀ {e : ETLError}, mergeRow out row = Except.error e →
            ∃ k v v', e = ETLError.mergeConflict k v v' ∧ v ≠ v' ∧ P k v ∧ P k v' := by
  intro row
  induction row with
  | nil =>
    intro out hout _
    constructor
    · intro out' h k v hv
      rw [mergeRow, List.foldlM_nil] at h
      injection h with h2
      rw [← h2] at hv
      exact hout k v hv
    · intro e h
      rw [mergeRow, List.foldlM_nil] at h
      exact Except.noConfusion h
  | cons kv rest ih =>
    intro out hout hrow
    cases hstep : mergeStep out kv with
    | error e0 =>
      constructor
      · intro out' h k v hv
        rw [mergeRow, List.foldlM_cons, hstep, exceptBind_error] at h
        exact Except.noConfusion h
      · intro e h
        rw [mergeRow, List.foldlM_cons, hstep, exceptBind_error] at h
        injection h with h2
        obtain ⟨v0, hget, hne, he0⟩ := mergeStep_error_cases hstep
        refine ⟨kv.1, kv.2, v0, ?_, ?_,
          hrow kv (List.mem_cons_self _ _), hout _ _ hget⟩
        · rw [← h2]
          exact he0
        · exact fun hh => hne hh.symm
    | ok out1 =>
      have hout1 : ∀ k v, Record.get out1 k = some v → P k v := by
        intro k v hv
        rcases mergeStep_ok_cases hstep with ⟨_, rfl⟩ | ⟨_, rfl⟩
        · by_cases hk : k = kv.1
          · subst hk
            rw [Record.get_set_self] at hv
            injection hv with h3
            rw [← h3]
            exact hrow kv (List.mem_cons_self _ _)
          · rw [Record.get_set_ne _ _ hk] at hv
            exact hout k v hv
        · exact hout k v hv
      have hrest := ih hout1 (fun kv' h => hrow kv' (List.mem_cons_of_mem _ h))
      constructor
      · intro out' h k v hv
        rw [mergeRow, List.foldlM_cons, hstep, exceptBind_ok] at h
        exact hrest.1 h k v hv
      · intro e h
        rw [mergeRow, List.foldlM_cons, hstep, exceptBind_ok] at h
        exact hrest.2 h

lemma merge_foldl_prov {P : String → Value → Prop} :
    ∀ {gs : List Record} {out : Record},
      (∀ k v, Record.get out k = some v → P k v) →
      (∀ r ∈ gs, ∀ kv ∈ r, P kv.1 kv.2) →
      ∀ {e : ETLError}, gs.foldlM mergeRow out = Except.error e →
        ∃ k v v', e = ETLError.mergeConflict k v v' ∧ v ≠ v' ∧ P k v ∧ P k v' := by
  intro gs
  induction gs with
  | nil =>
    intro out _ _ e h
    rw [List.foldlM_nil] at h
    exact Except.noConfusion h
  | cons r gs ih =>
    intro out hout hrows e h
    rw [List.foldlM_cons] at h
    cases hstep : mergeRow out r with
    | error e0 =>
      rw [hstep, exceptBind_error] at h
      injection h with h2
      obtain ⟨k, v, v', he0, hne, hv, hv'⟩ :=
        (mergeRow_prov hout (hrows r (List.mem_cons_self _ _))).2 hstep
      refine ⟨k, v, v', ?_, hne, hv, hv'⟩
      rw [← h2]
      exact he0
    | ok out1 =>
      rw [hstep, exceptBind_ok] at h
      exact ih ((mergeRow_prov hout (hrows r (List.mem_cons_self _ _))).1 hstep)
        (fun r' h' kv hkv => hrows r' (List.mem_cons_of_mem _ h') kv hkv) h

lemma mergeRow_ok_of_compat : ∀ {row : Record}, Record.NodupKeys row →
    ∀ {out : Record},
      (∀ kv ∈ row, ∀ v0, Record.get out kv.1 = some v0 → v0 = kv.2) →
      ∃ out', mergeRow out row = Except.ok out'
        ∧ ∀ k, Record.get out' k = (Record.get out k).or (Record.get row k) := by
  intro row
  induction row with
  | nil =>
    intro _ out _
    exact ⟨out, rfl, fun k => by
      rw [show Record.get [] k = none from rfl, Option.or_none]⟩
  | cons kv rest ih =>
    intro hnd out hcompat
    rw [Record.NodupKeys, List.map_cons, List.nodup_cons] at hnd
    cases hget : Record.get out kv.1 with
    | none =>
      have hstep : mergeStep out kv = Except.ok (out.set kv.1 kv.2) := by
        unfold mergeStep
        rw [hget]
      have hcompat2 : ∀ kv' ∈ rest, ∀ v0,
          Record.get (out.set kv.1 kv.2) kv'.1 = some v0 → v0 = kv'.2 := by
        intro kv' hkv' v0 hv0
        have hne : kv'.1 ≠ kv.1 := by
          intro e
          exact hnd.1 (e ▸ List.mem_map.mpr ⟨kv', hkv', rfl⟩)
        rw [Record.get_set_ne _ _ hne] at hv0
        exact hcompat kv' (List.mem_cons_of_mem _ hkv') v0 hv0
      obtain ⟨out', hout', hchar⟩ := ih hnd.2 hcompat2
      refine ⟨out', ?_, ?_⟩
      · rw [mergeRow, List.foldlM_cons, hstep, exceptBind_ok]
        exact hout'
      · intro k
        rw [hchar k]
        by_cases hk : k = kv.1
        · subst hk
          rw [Record.get_set_self, hget, Option.none_or,
            show Record.get (kv :: rest) kv.1 = some kv.2 by
              rw [Record.get, if_pos rfl],
            show (some kv.2).or (Record.get rest kv.1) = some kv.2 from rfl]
        · rw [Record.get_set_ne _ _ hk,
            show Record.get (kv :: rest) k = Record.get rest k by
              rw [Record.get, if_neg (fun e => hk e.symm)]]
    | some v0 =>
      have hv0 : v0 = kv.2 := hcompat kv (List.mem_cons_self _ _) v0 hget
      subst hv0
      have hstep : mergeStep out kv = Except.ok out := by
        unfold mergeStep
        rw [hget]
        exact if_pos rfl
      obtain ⟨out', hout', hchar⟩ := ih hnd.2
        (fun kv' hkv' w hw => hcompat kv' (List.mem_cons_of_mem _ hkv') w hw)
      refine ⟨out', ?_, ?_⟩
      · rw [mergeRow, List.foldlM_cons, hstep, exceptBind_ok]
        exact hout'
      · intro k
        rw [hchar k]
        by_cases hk : k = kv.1
        · subst hk
          rw [hget,
            show Record.get (kv :: rest) kv.1 = some kv.2 by
              rw [Record.get, if_pos rfl]]
          rfl
        · rw [show Record.get (kv :: rest) k = Record.get rest k by
            rw [Record.get, if_neg (fun e => hk e.symm)]]

lemma merge_foldl_ok_of_consistent : ∀ {gs : List Record},
    (∀ r ∈ gs, r.NodupKeys) → consistentGroup gs →
    ∀ {out : Record},
      (∀ r ∈ gs, ∀ kv ∈ r, ∀ v0, Record.get out kv.1 = some v0 → v0 = kv.2) →
      ∃ out', gs.foldlM mergeRow out = Except.ok out'
        ∧ ∀ k, Record.get out' k = (Record.get out k).or (groupGet gs k) := by
  intro gs
  induction gs with
  | nil =>
    intro _ _ out _
    exact ⟨out, rfl, fun k => by
      rw [show groupGet [] k = none from rfl, Option.or_none]⟩
  | cons r gs ih =>
    intro hnd hcons out hout
    obtain ⟨out1, hrow, hchar1⟩ :=
      mergeRow_ok_of_compat (hnd r (List.mem_cons_self _ _))
        (hout r (List.mem_cons_self _ _))
    have hcompat1 : ∀ r' ∈ gs, ∀ kv ∈ r', ∀ v0,
        Record.get out1 kv.1 = some v0 → v0 = kv.2 := by
      intro r' hr' kv hkv v0 hv0
      rw [hchar1 kv.1] at hv0
      cases hg : Record.get out kv.1 with
      | some w =>
        rw [hg] at hv0
        replace hv0 : some w = some v0 := hv0
        injection hv0 with h3
        rw [h3] at hg
        exact hout r' (List.mem_cons_of_mem _ hr') kv hkv v0 hg
      | none =>
        rw [hg, Option.none_or] at hv0
        exact hcons r (List.mem_cons_self _ _) r' (List.mem_cons_of_mem _ hr')
          (kv.1, v0) (Record.mem_of_get_eq_some hv0) kv hkv rfl
    obtain ⟨out', hfold, hchar⟩ := ih
      (fun r' h => hnd r' (List.mem_cons_of_mem _ h))
      (fun r1 h1 r2 h2 kv1 hkv1 kv2 hkv2 he =>
        hcons r1 (List.mem_cons_of_mem _ h1) r2 (List.mem_cons_of_mem _ h2)
          kv1 hkv1 kv2 hkv2 he)
      hcompat1
    refine ⟨out', ?_, ?_⟩
    · rw [List.foldlM_cons, hrow, exceptBind_ok]
      exact hfold
    · intro k
      rw [hchar k, hchar1 k, Option.or_assoc]
      congr 1
      cases hg : Record.get r k <;>
        simp [groupGet, List.findSome?_cons, hg]

lemma mergeRow_append : ∀ {row : Record}, Record.NodupKeys row →
    ∀ {acc : Record}, (∀ kv ∈ row, Record.get acc kv.1 = none) →
      mergeRow acc row = Except.ok (acc ++ row) := by
  intro row
  induction row with
  | nil =>
    intro _ acc _
    rw [mergeRow, List.foldlM_nil, List.append_nil]
    rfl
  | cons kv rest ih =>
    intro hnd acc hnone
    rw [Record.NodupKeys, List.map_cons, List.nodup_cons] at hnd
    have hget := hnone kv (List.mem_cons_self _ _)
    have hstep : mergeStep acc kv = Except.ok (acc.set kv.1 kv.2) := by
      unfold mergeStep
      rw [hget]
    have hset : acc.set kv.1 kv.2 = acc ++ [kv] := Record.set_eq_append _ hget
    have hnone2 : ∀ kv' ∈ rest, Record.get (acc ++ [kv]) kv'.1 = none := by
      intro kv' hkv'
      rw [Record.get_append, hnone kv' (List.mem_cons_of_mem _ hkv'), Option.none_or]
      have hne : kv.1 ≠ kv'.1 := fun e =>
        hnd.1 (e ▸ List.mem_map.mpr ⟨kv', hkv', rfl⟩)
      rw [Record.get, if_neg hne]
      rfl
    have h2 := ih hnd.2 hnone2
    rw [List.append_assoc, List.singleton_append] at h2
    rw [mergeRow, List.foldlM_cons, hstep, exceptBind_ok, hset]
    exact h2

lemma mergeRow_noop : ∀ {row out : Record},
    (∀ kv ∈ row, Record.get out kv.1 = some kv.2) →
    mergeRow out row = Except.ok out := by
  intro row
  induction row with
  | nil => intro out _; rfl
  | cons kv rest ih =>
    intro out hall
    have hstep : mergeStep out kv = Except.ok out := by
      unfold mergeStep
      rw [hall kv (List.mem_cons_self _ _)]
      exact if_pos rfl
    rw [mergeRow, List.foldlM_cons, hstep, exceptBind_ok]
    exact ih (fun kv' h => hall kv' (List.mem_cons_of_mem _ h))

lemma groupGet_eq_some_iff : ∀ {g : List Record} {k : String},
    (∃ v, groupGet g k = some v) ↔ ∃ r ∈ g, ∃ v, Record.get r k = some v := by
  intro g
  induction g with
  | nil => intro k; simp [groupGet]
  | cons r g ih =>
    intro k
    cases hg : Record.get r k with
    | some v0 =>
      constructor
      · intro _
        exact ⟨r, List.mem_cons_self _ _, v0, hg⟩
      · intro _
        exact ⟨v0, by simp [groupGet, List.findSome?_cons, hg]⟩
    | none =>
      have hstep : groupGet (r :: g) k = groupGet g k := by
        simp [groupGet, List.findSome?_cons, hg]
      rw [hstep, ih]
      constructor
      · rintro ⟨r', hr', hv⟩
        exact ⟨r', List.mem_cons_of_mem _ hr', hv⟩
      · rintro ⟨r', hr', hv⟩
        rcases List.mem_cons.mp hr' with rfl | hr'
        · obtain ⟨v, hv⟩ := hv
          rw [hg] at hv
          exact Option.noConfusion hv
        · exact ⟨r', hr', hv⟩

/-- C10: merging succeeds on groups whose rows have differing field sets, as
long as no field is given two different values: the result's lookup at each
field is the value of the first row of the group containing that field, and a
field is present in the result iff some row of the group contains it. -/
theorem merge_fields_union (g : List Record)
    (hnd : ∀ r ∈ g, r.NodupKeys) (hcons : consistentGroup g) :
    ∃ out, merge_fields g = Except.ok out
      ∧ (∀ k, Record.get out k = groupGet g k)
      ∧ ∀ k, (∃ v, Record.get out k = some v)
          ↔ ∃ r ∈ g, ∃ v, Record.get r k = some v := by
  have hinit : ∀ r ∈ g, ∀ kv ∈ r, ∀ v0 : Value,
      Record.get ([] : Record) kv.1 = some v0 → v0 = kv.2 := by
    intro r _ kv _ v0 h
    rw [show Record.get [] kv.1 = none from rfl] at h
    exact Option.noConfusion h
  obtain ⟨out, hfold, hchar⟩ := merge_foldl_ok_of_consistent hnd hcons hinit
  have hkey : ∀ k, Record.get out k = groupGet g k := by
    intro k
    rw [hchar k]
    rfl
  refine ⟨out, hfold, hkey, ?_⟩
  intro k
  rw [hkey k]
  exact groupGet_eq_some_iff

/-- Witness for C10 on a two-row group with disjoint field sets. -/
theorem merge_fields_union_witness :
    consistentGroup [[("a", Value.i 1)], [("b", Value.i 2)]]
      ∧ ∃ out, merge_fields [[("a", Value.i 1)], [("b", Value.i 2)]] = Except.ok out
        ∧ (∀ k, Record.get out k = groupGet [[("a", Value.i 1)], [("b", Value.i 2)]] k)
        ∧ ∀ k, (∃ v, Record.get out k = some v)
            ↔ ∃ r ∈ [[("a", Value.i 1)], [("b", Value.i 2)]], ∃ v,
                Record.get r k = some v :=
  ⟨by decide,
    merge_fields_union [[("a", Value.i 1)], [("b", Value.i 2)]] (by decide) (by decide)⟩

/-- C8: merging a group of field-wise identical rows returns that row
unchanged, and merging a group in which two rows give different values to some
field fails with a merge-conflict error naming a conflicting field and the two
conflicting values, both drawn from rows of the group. -/
theorem merge_fields_spec :
    (∀ (r0 : Record) (rest : List Record),
        (∀ r ∈ r0 :: rest, r.NodupKeys ∧ ∀ k, Record.get r k = Record.get r0 k) →
        merge_fields (r0 :: rest) = Except.ok r0)
      ∧ ∀ (g : List Record),
          (∃ k, ∃ r1 ∈ g, ∃ r2 ∈ g, ∃ v1 v2, Record.get r1 k = some v1
            ∧ Record.get r2 k = some v2 ∧ v1 ≠ v2) →
          ∃ k v v', merge_fields g = Except.error (ETLError.mergeConflict k v v')
            ∧ v ≠ v' ∧ (∃ r ∈ g, (k, v) ∈ r) ∧ ∃ r' ∈ g, (k, v') ∈ r' := by
  constructor
  · intro r0 rest hall
    have hnd0 := (hall r0 (List.mem_cons_self _ _)).1
    have h1 : mergeRow [] r0 = Except.ok ([] ++ r0) :=
      mergeRow_append hnd0 (fun kv _ => rfl)
    rw [List.nil_append] at h1
    have h2 : ∀ rs : List Record,
        (∀ r ∈ rs, r.NodupKeys ∧ ∀ k, Record.get r k = Record.get r0 k) →
        rs.foldlM mergeRow r0 = Except.ok r0 := by
      intro rs
      induction rs with
      | nil => intro _; rfl
      | cons r rs ih2 =>
        intro hrs
        have hr := hrs r (List.mem_cons_self _ _)
        have hnoop : mergeRow r0 r = Except.ok r0 :=
          mergeRow_noop (fun kv hkv => by
            rw [← hr.2 kv.1]
            exact Record.get_eq_some_of_mem hr.1 hkv)
        rw [List.foldlM_cons, hnoop, exceptBind_ok]
        exact ih2 (fun r' h => hrs r' (List.mem_cons_of_mem _ h))
    show (r0 :: rest).foldlM mergeRow [] = Except.ok r0
    rw [List.foldlM_cons, h1, exceptBind_ok]
    exact h2 rest (fun r h => hall r (List.mem_cons_of_mem _ h))
  · intro g hconf
    have hnotok : ∀ out, merge_fields g ≠ Except.ok out := by
      intro out hok
      obtain ⟨k, r1, hr1, r2, hr2, v1, v2, hv1, hv2, hnev⟩ := hconf
      have m1 := merge_foldl_sets hok r1 hr1 (k, v1) (Record.mem_of_get_eq_some hv1)
      have m2 := merge_foldl_sets hok r2 hr2 (k, v2) (Record.mem_of_get_eq_some hv2)
      rw [m1] at m2
      injection m2 with h3
      exact hnev h3
    cases he : merge_fields g with
    | ok out => exact absurd he (hnotok out)
    | error e =>
      have hinit : ∀ (k : String) (v : Value),
          Record.get ([] : Record) k = some v → ∃ r ∈ g, (k, v) ∈ r := by
        intro k v h
        rw [show Record.get [] k = none from rfl] at h
        exact Option.noConfusion h
      have hfrom : ∀ r ∈ g, ∀ kv ∈ r,
          ∃ r' ∈ g, ((kv : String × Value).1, kv.2) ∈ r' :=
        fun r hr kv hkv => ⟨r, hr, hkv⟩
      obtain ⟨k, v, v', herr, hne, hv, hv'⟩ := merge_foldl_prov hinit hfrom he
      refine ⟨k, v, v', ?_, hne, hv, hv'⟩
      rw [herr]

/-- Witness for C8: a group of two identical one-field rows merges to that
row; a group of two rows disagreeing on field "a" raises the conflict. -/
theorem merge_fields_spec_witness :
    merge_fields [[("a", Value.i 1)], [("a", Value.i 1)]]
        = Except.ok [("a", Value.i 1)]
      ∧ ∃ k v v', merge_fields [[("a", Value.i 1)], [("a", Value.i 2)]]
          = Except.error (ETLError.mergeConflict k v v')
        ∧ v ≠ v'
        ∧ (∃ r ∈ [[("a", Value.i 1)], [("a", Value.i 2)]], (k, v) ∈ r)
        ∧ ∃ r' ∈ [[("a", Value.i 1)], [("a", Value.i 2)]], (k, v') ∈ r' :=
  ⟨merge_fields_spec.1 [("a", Value.i 1)] [[("a", Value.i 1)]]
      (by
        intro r hr
        rcases List.mem_cons.mp hr with rfl | hr
        · exact ⟨by decide, fun k => rfl⟩
        · rcases List.mem_cons.mp hr with rfl | hr
          · exact ⟨by decide, fun k => rfl⟩
          · cases hr),
    merge_fields_spec.2 [[("a", Value.i 1)], [("a", Value.i 2)]]
      ⟨"a", [("a", Value.i 1)], by decide, [("a", Value.i 2)], by decide,
        Value.i 1, Value.i 2, rfl, rfl, by decide⟩⟩
